import Mathlib

/-!
Verification of the Boulderdash level-analysis scripts.

The repository's engine works on textual grid patterns.  We model Python
strings as lists of characters (`List Char`) and grids as lists of rows
(`List (List Char)`).  Every definition below is a direct translation of
the corresponding Python code in
`redistribute-diamonds.py`, `verify-accessibility.py`,
`check-sealed-diamonds.py` and `check-all-caves.py`.
-/

set_option maxRecDepth 8192

namespace Boulderdash

/-! ## Text model -/

/-- The whitespace characters stripped by Python's `str.strip()`. -/
def pyWhitespace (c : Char) : Bool :=
  c = ' ' ∨ c = '\t' ∨ c = '\n' ∨ c = '\r' ∨ c = Char.ofNat 11 ∨ c = Char.ofNat 12

/-- Python's `text.strip()`: remove leading and trailing whitespace. -/
def pyStrip (t : List Char) : List Char :=
  ((t.dropWhile pyWhitespace).reverse.dropWhile pyWhitespace).reverse

/-- Python's `text.split('\n')`.  The empty text yields one empty row,
matching Python where `"".split('\n') == [""]`. -/
def splitLines : List Char → List (List Char)
  | [] => [[]]
  | c :: cs =>
    if c = '\n' then [] :: splitLines cs
    else
      match splitLines cs with
      | [] => [[c]]
      | r :: rs => (c :: r) :: rs

/-- Python's `'\n'.join(rows)`. -/
def joinLines : List (List Char) → List Char
  | [] => []
  | [r] => r
  | r :: rs => r ++ '\n' :: joinLines rs

/-! ## Cell kinds

The symbol table of the level format (spec section 6): wall `W`, dirt `.`,
empty space, diamond `*`, player spawn `P`, exit `E`, enemy `F`,
special rock/amoeba markers `#`/`M`; unknown characters count as wall. -/

inductive CellKind where
  | Wall | Dirt | Empty | Diamond | Player | Exit | Enemy | Special
deriving DecidableEq, Repr

/-- The cell kind encoded by one pattern character. -/
def kindOf : Char → CellKind
  | 'W' => .Wall
  | '.' => .Dirt
  | ' ' => .Empty
  | '*' => .Diamond
  | 'P' => .Player
  | 'E' => .Exit
  | 'F' => .Enemy
  | 'M' => .Special
  | '#' => .Special
  | _ => .Wall

/-! ## Row-major grid scanning

All four scripts enumerate a grid with
`for y, line in enumerate(lines): for x, char in enumerate(line)`.
We capture that scan once: `rowHits p x l` are the x-coordinates of the
cells of row `l` (whose first cell has coordinate `x`) satisfying `p`,
and `gridHits p y g` the `(x, y)` coordinates over the whole grid,
in row-major order. -/

def rowHits (p : Char → Bool) : Nat → List Char → List Nat
  | _, [] => []
  | x, c :: cs => (if p c then [x] else []) ++ rowHits p (x + 1) cs

def gridHits (p : Char → Bool) : Nat → List (List Char) → List (Nat × Nat)
  | _, [] => []
  | y, row :: rows => (rowHits p 0 row).map (fun x => (x, y)) ++ gridHits p (y + 1) rows

/-- Row `y` of a grid; out-of-range rows read as the empty row. -/
def rowAt (g : List (List Char)) (y : Nat) : List Char := g.getD y []

/-- The character of the in-range cell `(x, y)`. -/
def charAt (g : List (List Char)) (x y : Nat) : Char := (rowAt g y).getD x ' '

/-- The total number of cells of the grid. -/
def totalCells (g : List (List Char)) : Nat := (g.map List.length).sum

/-- The number of diamond characters in the grid. -/
def countDiamonds (g : List (List Char)) : Nat := (g.map (fun l => l.count '*')).sum

/-- Convenience for concrete grids. -/
def toRows (l : List String) : List (List Char) := l.map String.toList

/-! ## IEEE-754 binary64 arithmetic

`redistribute-diamonds.py` computes `step = len(valid_positions) / required`
in Python floats (IEEE-754 binary64) and indexes at `int(i * step)`.  We
model that arithmetic exactly, over integers: a finite nonnegative double
is a dyadic pair `(m, G)` of value `m * 2^G`, and `roundFloat n d z`
correctly rounds the rational `n / d * 2^z` to the nearest double
(round-to-nearest, ties-to-even), returning `none` on overflow to
infinity.  The model covers CPython's behavior on each operation used:
`N / R` on ints is correctly-rounded true division, `i * step` converts
the int `i` to a double and performs one correctly-rounded
multiplication, and `int(x)` truncates (floor, for nonnegative `x`). -/

/-- Floor of log base 2, fuel-driven (`natLog2F n n` computes `⌊log2 n⌋`
for `1 ≤ n`; its defining property is proved in `natLog2_le_iff`). -/
def natLog2F : Nat → Nat → Nat
  | 0, _ => 0
  | fuel + 1, n => if n ≤ 1 then 0 else natLog2F fuel (n / 2) + 1

/-- `⌊log2 n⌋` for `1 ≤ n` (0 at 0). -/
def natLog2 (n : Nat) : Nat := natLog2F n n

/-- The smallest `m` with `d ≤ n * 2^m`, fuel-driven (for `1 ≤ n` the
fuel `d` suffices since `d ≤ 2^d`). -/
def scaleUpF : Nat → Nat → Nat → Nat
  | 0, _, _ => 0
  | fuel + 1, n, d => if d ≤ n then 0 else scaleUpF fuel (2 * n) d + 1

/-- `⌊log2 (n / d)⌋` for `1 ≤ n` and `1 ≤ d`: for `n / d ≥ 1` this is
`⌊log2 ⌊n / d⌋⌋`; for `n / d < 1` it is `-m` for the smallest `m` with
`2^(-m) ≤ n / d`. -/
def floorLog2Frac (n d : Nat) : Int :=
  if d ≤ n then (natLog2 (n / d) : Int) else -(scaleUpF d n d : Int)

/-- Round the ratio `num / den` to the nearest integer, ties to even. -/
def roundMant (num den : Nat) : Nat :=
  let m := num / den
  let r := num % den
  if 2 * r < den then m
  else if den < 2 * r then m + 1
  else if m % 2 = 0 then m else m + 1

/-- Correctly round the nonnegative rational `n / d * 2^z` to an IEEE-754
binary64 value, as a dyadic pair `(mantissa, exponent)`; `none` is
overflow to infinity.  With `e = ⌊log2 (n/d * 2^z)⌋`, the rounding grid
has spacing `2^G` for `G = max e (-1022) - 52` (the `max` handles
subnormals); the value over the grid is the ratio `num / den` below,
rounded to nearest-even by `roundMant`.  The result overflows iff
`mm * 2^G ≥ 2^1024`, i.e. iff `1 ≤ mm` and `1024 - G ≤ ⌊log2 mm⌋`
(see `natLog2_le_iff`). -/
def roundFloat (n d : Nat) (z : Int) : Option (Nat × Int) :=
  if n = 0 then some (0, 0)
  else if d = 0 then none
  else
    let e := floorLog2Frac n d + z
    let G := max e (-1022) - 52
    let t := z - G
    let num := if 0 ≤ t then n * 2 ^ t.toNat else n
    let den := if 0 ≤ t then d else d * 2 ^ (-t).toNat
    let mm := roundMant num den
    if 1 ≤ mm ∧ (1024 - G : Int) ≤ (natLog2 mm : Int) then none
    else some (mm, G)

/-- `int(x)` on a nonnegative dyadic: floor of `m * 2^z`. -/
def dyadicFloorNat (p : Nat × Int) : Nat :=
  if 0 ≤ p.2 then p.1 * 2 ^ p.2.toNat else p.1 / 2 ^ (-p.2).toNat

/-- Python's `int(i * step)` with `step = N / R`: correctly-rounded int
division `N / R`, int-to-double conversion of `i`, one correctly-rounded
multiplication, truncation.  `none` models `OverflowError` (from a huge
int division result, a huge `i`, or `int(inf)`). -/
def pyIdx (i N R : Nat) : Option Nat :=
  match roundFloat N R 0 with
  | none => none
  | some s =>
    match roundFloat i 1 0 with
    | none => none
    | some fi =>
      match roundFloat (fi.1 * s.1) 1 (fi.2 + s.2) with
      | none => none
      | some p => some (dyadicFloorNat p)

/-! ## Diamond redistribution (`redistribute-diamonds.py`)

`redistribute_cave_diamonds(pattern_text, required)` strips and splits the
pattern, replaces every `*` by `.`, collects the `.`/space positions in
row-major order, and — if there are enough of them — stamps `*` at the
candidate indices `int(i * step)` with
`step = len(valid_positions) / required`, computed in IEEE doubles
(`pyIdx`).  When `required = 0` the Python expression
`len(valid_positions) / required` raises `ZeroDivisionError`, modelled as
`none`; an index outside the candidate list would raise `IndexError` and
a float overflow `OverflowError`, both also modelled as `none`. -/

/-- The characters that may receive a diamond (`char in ['.', ' ']`). -/
def isCandidateChar (c : Char) : Bool := c = '.' ∨ c = ' '

/-- `line.replace('*', '.')`. -/
def cleanRow (l : List Char) : List Char :=
  l.map (fun c => if c = '*' then '.' else c)

/-- The diamond-removal pass over all rows. -/
def cleanGrid (g : List (List Char)) : List (List Char) := g.map cleanRow

/-- The row-major candidate list `valid_positions`. -/
def validPositions (g : List (List Char)) : List (Nat × Nat) :=
  gridHits isCandidateChar 0 g

/-- The selection loop `selected.append(valid_positions[int(i * step)])`
over a list of loop indices: `none` on float overflow or on an
out-of-range index (Python's `IndexError`). -/
def selectFrom (valid : List (Nat × Nat)) (R : Nat) : List Nat → Option (List (Nat × Nat))
  | [] => some []
  | i :: is =>
    match pyIdx i valid.length R with
    | none => none
    | some idx =>
      if idx < valid.length then
        match selectFrom valid R is with
        | none => none
        | some rest => some (valid.getD idx (0, 0) :: rest)
      else none

/-- The selection `valid_positions[int(i * step)]` for
`i in range(required)`, with `step = len(valid_positions) / required` in
IEEE double arithmetic. -/
def selectedPositions (valid : List (Nat × Nat)) (required : Nat) :
    Option (List (Nat × Nat)) :=
  selectFrom valid required (List.range required)

/-- Stamping one row whose first cell has x-coordinate `x`:
a cell becomes `*` exactly when its coordinate was selected. -/
def stampRow (sel : List (Nat × Nat)) (y : Nat) : Nat → List Char → List Char
  | _, [] => []
  | x, c :: cs => (if (x, y) ∈ sel then '*' else c) :: stampRow sel y (x + 1) cs

/-- Stamping all rows, the first one having y-coordinate `y`. -/
def stampGrid (sel : List (Nat × Nat)) : Nat → List (List Char) → List (List Char)
  | _, [] => []
  | y, row :: rows => stampRow sel y 0 row :: stampGrid sel (y + 1) rows

/-- The grid-level body of `redistribute_cave_diamonds`, from the cleaned
lines onward.  The `Bool` records whether the insufficient-space error
message was printed (in which case the input is returned unchanged);
`none` models the exceptions: `ZeroDivisionError` when `required = 0`
gets past the length check, and `OverflowError`/`IndexError` from the
selection. -/
def redistributeGrid (g : List (List Char)) (required : Nat) :
    Option (Bool × List (List Char)) :=
  let cleaned := cleanGrid g
  let valid := validPositions cleaned
  if valid.length < required then some (true, g)
  else if required = 0 then none
  else
    match selectedPositions valid required with
    | none => none
    | some sel => some (false, stampGrid sel 0 cleaned)

/-- `redistribute_cave_diamonds(pattern_text, required)` at the text level:
parse (strip + split), run the grid body, and on success join the stamped
rows with newlines; on the insufficient-space error the original
`pattern_text` is returned verbatim. -/
def redistribute_cave_diamonds (t : List Char) (required : Nat) :
    Option (Bool × List Char) :=
  match redistributeGrid (splitLines (pyStrip t)) required with
  | none => none
  | some (e, g) => if e then some (true, t) else some (false, joinLines g)

/-! ## Flood-fill reachability (`verify-accessibility.py`)

`flood_fill_check(pattern_text)` drops blank lines, finds the player
spawn (`P`, the last occurrence winning in the scan) and the diamond
positions, and runs a breadth-first search over the four orthogonal
neighbors, walking through the characters in
`[' ', '.', '*', 'E', 'F', 'P']` only.  Every popped position that holds
a diamond is recorded as reachable.  Grid positions are `(x, y)` pairs of
naturals; the neighbor step goes through integers because Python computes
`x + dx` with `dx` possibly `-1` and then discards negatives via the
`0 <= nx` bounds check. -/

/-- The characters the flood fill may walk through. -/
def walkableChar (c : Char) : Bool :=
  c = ' ' ∨ c = '.' ∨ c = '*' ∨ c = 'E' ∨ c = 'F' ∨ c = 'P'

/-- The neighbor offsets `[(0, 1), (0, -1), (1, 0), (-1, 0)]`, as
`(dx, dy)` pairs. -/
def dirs : List (Int × Int) := [(0, 1), (0, -1), (1, 0), (-1, 0)]

/-- The bounds guard `0 <= ny < len(lines) and 0 <= nx < len(lines[ny])`. -/
def inBoundsZ (g : List (List Char)) (nx ny : Int) : Bool :=
  0 ≤ ny ∧ ny < (g.length : Int) ∧ 0 ≤ nx ∧ nx < ((rowAt g ny.toNat).length : Int)

/-- The diamond positions of the grid. -/
def diamondsOf (g : List (List Char)) : List (Nat × Nat) :=
  gridHits (fun c => c = '*') 0 g

/-- The player positions of the grid, in scan order. -/
def playersOf (g : List (List Char)) : List (Nat × Nat) :=
  gridHits (fun c => c = 'P') 0 g

/-- `player_pos` after the scan: the last `P` assignment wins. -/
def playerPos (g : List (List Char)) : Option (Nat × Nat) :=
  (playersOf g).getLast?

/-- One neighbor probe of the BFS inner loop: bounds check, visited
check, walkability check; a new cell is appended to both the visited set
and the queue. -/
def expandStep (g : List (List Char)) (q : Nat × Nat)
    (vq : List (Nat × Nat) × List (Nat × Nat)) (d : Int × Int) :
    List (Nat × Nat) × List (Nat × Nat) :=
  let nx : Int := (q.1 : Int) + d.1
  let ny : Int := (q.2 : Int) + d.2
  if inBoundsZ g nx ny then
    let n : Nat × Nat := (nx.toNat, ny.toNat)
    if n ∉ vq.1 ∧ walkableChar (charAt g n.1 n.2) then (vq.1 ++ [n], vq.2 ++ [n])
    else vq
  else vq

/-- Probing the four directions from the popped cell `q`. -/
def expand (g : List (List Char)) (q : Nat × Nat)
    (visited queue : List (Nat × Nat)) : List (Nat × Nat) × List (Nat × Nat) :=
  dirs.foldl (expandStep g q) (visited, queue)

/-- The BFS main loop (`while queue:`), with explicit fuel.  The fuel
argument is purely a termination device: `totalCells g + 1` units are
proved sufficient for the loop to drain its queue.  Popped diamonds are
added to the reachable set (modelled insert-if-absent, as for a Python
set). -/
def bfsLoop (g : List (List Char)) :
    Nat → List (Nat × Nat) → List (Nat × Nat) → List (Nat × Nat) →
    List (Nat × Nat) × List (Nat × Nat)
  | 0, _, visited, reached => (visited, reached)
  | _ + 1, [], visited, reached => (visited, reached)
  | fuel + 1, q :: qs, visited, reached =>
    let reached2 := if q ∈ diamondsOf g ∧ q ∉ reached then reached ++ [q] else reached
    let vq := expand g q visited qs
    bfsLoop g fuel vq.2 vq.1 reached2

/-- The visited set of the flood fill started at `p`. -/
def floodVisited (g : List (List Char)) (p : Nat × Nat) : List (Nat × Nat) :=
  (bfsLoop g (totalCells g + 1) [p] [p] []).1

/-- The reachable-diamond set of the flood fill started at `p`. -/
def floodReached (g : List (List Char)) (p : Nat × Nat) : List (Nat × Nat) :=
  (bfsLoop g (totalCells g + 1) [p] [p] []).2

/-- `flood_fill_check` from the (blank-line-filtered) rows onward,
returning `(all_accessible, reachable, unreachable)`. -/
def flood_fill_lines (lines : List (List Char)) : Bool × Nat × Nat :=
  if lines.isEmpty then (true, 0, 0)
  else
    match playerPos lines with
    | none => (false, 0, (diamondsOf lines).length)
    | some p =>
      let reached := floodReached lines p
      let unreach := (diamondsOf lines).length - reached.length
      (unreach == 0, reached.length, unreach)

/-- `flood_fill_check(pattern_text)`: strip, split, drop blank lines,
then analyze. -/
def flood_fill_check (t : List Char) : Bool × Nat × Nat :=
  flood_fill_lines ((splitLines (pyStrip t)).filter (fun l => !l.isEmpty))

/-! ## Sealed-diamond detection (`check-sealed-diamonds.py`) -/

/-- The two advisory flags, each naming the diamond's coordinate.  The
script emits them as formatted strings carrying `(x, y)`. -/
inductive SealFlag where
  | fullySealed (x y : Nat)
  | heavilyWalled (x y : Nat)
deriving DecidableEq, Repr

/-- Modelled from the spec: `cell_at(grid, x, y)` of the Grid Model,
returning Wall (`'W'`) for every out-of-range coordinate.  The source has
no named function for it; `check-sealed-diamonds.py` implements it inline
through bounds-guarded lookups with `'W'` fallbacks. -/
def cellAt (g : List (List Char)) (x y : Int) : Char :=
  if 0 ≤ y ∧ y < (g.length : Int) ∧ 0 ≤ x ∧ x < ((rowAt g y.toNat).length : Int)
  then (rowAt g y.toNat).getD x.toNat 'W'
  else 'W'

/-- The neighborhood offsets of the 8-neighbor pass, as `(dy, dx)` in
loop order, the center excluded by the `dy == 0 and dx == 0` skip. -/
def nbrOffsets : List (Int × Int) :=
  [(-1, -1), (-1, 0), (-1, 1), (0, -1), (0, 1), (1, -1), (1, 0), (1, 1)]

/-- `sealed_count`: in-range neighbors holding `'W'`; out-of-range
neighbors are skipped by the bounds guard, not counted. -/
def wallCount (g : List (List Char)) (x y : Nat) : Nat :=
  (nbrOffsets.filter (fun d =>
    let ny : Int := (y : Int) + d.1
    let nx : Int := (x : Int) + d.2
    inBoundsZ g nx ny ∧ charAt g nx.toNat ny.toNat = 'W')).length

/-- Modelled from the spec: the wall count of the 8-neighborhood when
"every neighborhood inspection ... treats out-of-range neighbor cells as
Wall", i.e. with the Wall-defaulting lookup `cellAt` instead of the
source's bounds-guarded skip. -/
def wallCountSpec (g : List (List Char)) (x y : Nat) : Nat :=
  (nbrOffsets.filter (fun d =>
    cellAt g ((x : Int) + d.2) ((y : Int) + d.1) = 'W')).length

/-- The checks run on the cell `(x, y)` of row `line`: only diamonds on
interior rows are inspected; the four orthogonal lookups default to `'W'`
out of range. -/
def sealIssuesAt (g : List (List Char)) (line : List Char) (x y : Nat) : List SealFlag :=
  if line.getD x ' ' = '*' then
    if 0 < y ∧ y < g.length - 1 then
      let above := if x < (rowAt g (y - 1)).length then (rowAt g (y - 1)).getD x 'W' else 'W'
      let below := if x < (rowAt g (y + 1)).length then (rowAt g (y + 1)).getD x 'W' else 'W'
      let leftC := if 0 < x then line.getD (x - 1) 'W' else 'W'
      let rightC := if x < line.length - 1 then line.getD (x + 1) 'W' else 'W'
      (if above = 'W' ∧ below = 'W' ∧ leftC = 'W' ∧ rightC = 'W'
       then [SealFlag.fullySealed x y] else []) ++
      (if 7 ≤ wallCount g x y then [SealFlag.heavilyWalled x y] else [])
    else []
  else []

/-- `check_sealed_diamonds(pattern_text)` from the split rows onward:
the row-major scan collecting the issues. -/
def check_sealed_diamonds (g : List (List Char)) : List SealFlag :=
  (List.range g.length).flatMap (fun y =>
    let line := rowAt g y
    (List.range line.length).flatMap (fun x => sealIssuesAt g line x y))

/-! ## Row-clustering heuristic (`check-all-caves.py`) -/

/-- The clustering verdict printed per cave. -/
inductive ClusterReport where
  | noDiamonds
  | clustered (pct : ℚ) (nlines : Nat)
  | wellDistributed
deriving DecidableEq, Repr

/-- `diamond_lines`: the `(index, count)` pairs of the rows holding at
least one diamond, the first row carrying index `idx`. -/
def diamondLines : Nat → List (List Char) → List (Nat × Nat)
  | _, [] => []
  | idx, row :: rows =>
    (if 0 < row.count '*' then [(idx, row.count '*')] else []) ++
      diamondLines (idx + 1) rows

/-- `sorted(diamond_lines, key=lambda x: x[1], reverse=True)`: a stable
sort descending on the count component. -/
def sortByCountDesc (l : List (Nat × Nat)) : List (Nat × Nat) :=
  List.insertionSort (fun a b => b.2 ≤ a.2) l

/-- The clustering check of `check-all-caves.py` for one pattern text:
`available = pattern.count('*')` on the raw text, rows from
`pattern.strip().split('\n')`, percentage as exact rational arithmetic in
place of Python floats. -/
def clusterOf (t : List Char) : ClusterReport :=
  let available := t.count '*'
  let lines := splitLines (pyStrip t)
  let dls := diamondLines 0 lines
  if dls.isEmpty then ClusterReport.noDiamonds
  else
    let topTwo := (sortByCountDesc dls).take 2
    let topTwoCount := (topTwo.map (fun q => q.2)).sum
    let pct : ℚ := if 0 < available then (topTwoCount : ℚ) / (available : ℚ) * 100 else 0
    if 60 < pct then ClusterReport.clustered pct topTwo.length
    else ClusterReport.wellDistributed

/-- The combined diamond count of the two rows with the highest counts
(`top_two_count`). -/
def topTwoSum (t : List Char) : Nat :=
  (((sortByCountDesc (diamondLines 0 (splitLines (pyStrip t)))).take 2).map
    (fun q => q.2)).sum

/-! ## Concrete grids used in scenarios and witnesses -/

/-- The end-to-end scenario grid of the spec. -/
def scenarioGrid : List (List Char) := toRows ["WWWWW", "W.P.W", "W.*.W", "WWWWW"]

/-- All in-range cell coordinates of the grid, row-major. -/
def allCells (g : List (List Char)) : List (Nat × Nat) :=
  gridHits (fun _ => true) 0 g

/-- Row-major order on coordinates: top-to-bottom, then left-to-right. -/
def rowMajorLt (q1 q2 : Nat × Nat) : Prop :=
  q1.2 < q2.2 ∨ (q1.2 = q2.2 ∧ q1.1 < q2.1)

/-- The relation between a visited/queue pair and its state after some
neighbor probes of the BFS inner loop: the visited set only grows (by
in-range cells not seen before), every probe appends to the visited set
and the queue together, and a cell visited during the probes is still
queued. -/
def ExpandRel (g : List (List Char))
    (vq vq2 : List (Nat × Nat) × List (Nat × Nat)) : Prop :=
  (∀ c ∈ vq.1, c ∈ vq2.1) ∧
  (∀ c ∈ vq.2, c ∈ vq2.2) ∧
  (vq.1.Nodup → vq2.1.Nodup) ∧
  (∀ c ∈ vq2.1, c ∈ vq.1 ∨ c ∈ allCells g) ∧
  ((∀ c ∈ vq.2, c ∈ vq.1) → ∀ c ∈ vq2.2, c ∈ vq2.1) ∧
  (vq2.2.length + vq.1.length = vq.2.length + vq2.1.length) ∧
  (∀ c ∈ vq2.1, c ∉ vq.1 → c ∈ vq2.2)

/-! # Theorems -/

theorem splitLines_ne_nil (t : List Char) : splitLines t ≠ [] := by
  induction t with
  | nil => simp [splitLines]
  | cons c cs ih =>
    simp only [splitLines]
    split
    · simp
    · cases h : splitLines cs with
      | nil => simp
      | cons r rs => simp

theorem mem_rowHits (p : Char → Bool) (l : List Char) :
    ∀ x a, a ∈ rowHits p x l ↔ ∃ i, i < l.length ∧ a = x + i ∧ p (l.getD i ' ') := by
  induction l with
  | nil => intro x a; simp [rowHits]
  | cons c cs ih =>
    intro x a
    simp only [rowHits, List.mem_append, ih (x + 1) a]
    constructor
    · rintro (h | ⟨i, hi, rfl, hp⟩)
      · refine ⟨0, by simp, ?_, ?_⟩
        · have : a = x := by by_cases hp : p c <;> simp [hp] at h; omega
          omega
        · have hpc : p c := by by_cases hp : p c <;> simp [hp] at h ⊢
          simpa using hpc
      · exact ⟨i + 1, by simpa using hi, by omega, by simpa using hp⟩
    · rintro ⟨i, hi, rfl, hp⟩
      cases i with
      | zero => left; simp at hp; simp [hp]
      | succ j =>
        right
        exact ⟨j, by simpa using hi, by omega, by simpa using hp⟩

theorem rowHits_length (p : Char → Bool) (l : List Char) :
    ∀ x, (rowHits p x l).length = l.countP p := by
  induction l with
  | nil => intro x; simp [rowHits]
  | cons c cs ih =>
    intro x
    by_cases h : p c <;> simp [rowHits, h, ih, List.countP_cons]

theorem rowHits_lb (p : Char → Bool) (l : List Char) :
    ∀ x a, a ∈ rowHits p x l → x ≤ a := by
  intro x a h
  rw [mem_rowHits] at h
  obtain ⟨i, _, rfl, _⟩ := h
  omega

theorem rowHits_nodup (p : Char → Bool) (l : List Char) :
    ∀ x, (rowHits p x l).Nodup := by
  induction l with
  | nil => intro x; simp [rowHits]
  | cons c cs ih =>
    intro x
    by_cases h : p c
    · simp only [rowHits, h, if_pos]
      refine List.Nodup.cons ?_ (ih (x + 1))
      intro hmem
      have := rowHits_lb p cs (x + 1) x hmem
      omega
    · simpa [rowHits, h] using ih (x + 1)

theorem mem_gridHits (p : Char → Bool) (g : List (List Char)) :
    ∀ y a b, (a, b) ∈ gridHits p y g ↔
      ∃ j, j < g.length ∧ b = y + j ∧ a ∈ rowHits p 0 (g.getD j []) := by
  induction g with
  | nil => intro y a b; simp [gridHits]
  | cons row rows ih =>
    intro y a b
    simp only [gridHits, List.mem_append, List.mem_map, ih (y + 1) a b]
    constructor
    · rintro (⟨x, hx, hxy⟩ | ⟨j, hj, rfl, hr⟩)
      · obtain ⟨rfl, rfl⟩ := Prod.mk.injEq .. ▸ hxy
        exact ⟨0, by simp, by omega, by simpa using hx⟩
      · exact ⟨j + 1, by simpa using hj, by omega, by simpa using hr⟩
    · rintro ⟨j, hj, rfl, hr⟩
      cases j with
      | zero => left; exact ⟨a, by simpa using hr, by simp⟩
      | succ k =>
        right
        exact ⟨k, by simpa using hj, by omega, by simpa using hr⟩

theorem gridHits_snd_lb (p : Char → Bool) (g : List (List Char)) :
    ∀ y a b, (a, b) ∈ gridHits p y g → y ≤ b := by
  intro y a b h
  rw [mem_gridHits] at h
  obtain ⟨j, _, rfl, _⟩ := h
  omega

theorem gridHits_nodup (p : Char → Bool) (g : List (List Char)) :
    ∀ y, (gridHits p y g).Nodup := by
  induction g with
  | nil => intro y; simp [gridHits]
  | cons row rows ih =>
    intro y
    refine List.Nodup.append ?_ (ih (y + 1)) ?_
    · exact (rowHits_nodup p row 0).map (fun a b => by simp)
    · intro q hq hq2
      obtain ⟨x, _, rfl⟩ := List.mem_map.mp hq
      have := gridHits_snd_lb p rows (y + 1) x y hq2
      omega

theorem gridHits_length (p : Char → Bool) (g : List (List Char)) :
    ∀ y, (gridHits p y g).length = (g.map (fun l => l.countP p)).sum := by
  induction g with
  | nil => intro y; simp [gridHits]
  | cons row rows ih =>
    intro y
    simp [gridHits, rowHits_length, ih]

/-! ### Generic facts about the scan and the grid -/

theorem mem_allCells (g : List (List Char)) (q : Nat × Nat) :
    q ∈ allCells g ↔ q.2 < g.length ∧ q.1 < (rowAt g q.2).length := by
  obtain ⟨a, b⟩ := q
  rw [allCells, mem_gridHits]
  constructor
  · rintro ⟨j, hj, rfl, hr⟩
    rw [mem_rowHits] at hr
    obtain ⟨i, hi, rfl, -⟩ := hr
    refine ⟨by omega, ?_⟩
    show 0 + i < (rowAt g (0 + j)).length
    rw [Nat.zero_add, Nat.zero_add]
    exact hi
  · rintro ⟨hb, ha⟩
    refine ⟨b, hb, (Nat.zero_add b).symm, ?_⟩
    rw [mem_rowHits]
    exact ⟨a, ha, (Nat.zero_add a).symm, rfl⟩

theorem gridHits_subset_allCells (p : Char → Bool) (g : List (List Char)) :
    ∀ q ∈ gridHits p 0 g, q ∈ allCells g := by
  intro q hq
  obtain ⟨a, b⟩ := q
  rw [mem_gridHits] at hq
  obtain ⟨j, hj, rfl, hr⟩ := hq
  rw [mem_rowHits] at hr
  obtain ⟨i, hi, rfl, -⟩ := hr
  rw [mem_allCells]
  constructor
  · omega
  · show 0 + i < (rowAt g (0 + j)).length
    rw [Nat.zero_add, Nat.zero_add]
    exact hi

theorem allCells_length (g : List (List Char)) : (allCells g).length = totalCells g := by
  simp [allCells, gridHits_length, totalCells, List.countP_true]

theorem allCells_nodup (g : List (List Char)) : (allCells g).Nodup :=
  gridHits_nodup _ g 0

/-- Counting the members of a duplicate-free sublist. -/
theorem countP_mem_of_nodup (L sel : List (Nat × Nat))
    (hL : L.Nodup) (hs : sel.Nodup) (hsub : ∀ q ∈ sel, q ∈ L) :
    L.countP (fun q => decide (q ∈ sel)) = sel.length := by
  rw [List.countP_eq_length_filter]
  have hperm : (L.filter (fun q => decide (q ∈ sel))).Perm sel := by
    rw [List.perm_ext_iff_of_nodup (hL.filter _) hs]
    intro a
    simp only [List.mem_filter, decide_eq_true_eq]
    exact ⟨fun h => h.2, fun h => ⟨hsub a h, h⟩⟩
  exact hperm.length_eq

/-! ### Redistribution lemmas -/

theorem cleanRow_length (l : List Char) : (cleanRow l).length = l.length := by
  simp [cleanRow]

theorem star_not_mem_cleanRow (l : List Char) : '*' ∉ cleanRow l := by
  intro h
  simp only [cleanRow, List.mem_map] at h
  obtain ⟨c, -, hc⟩ := h
  by_cases h2 : c = '*' <;> simp [h2] at hc

theorem cleanGrid_length (g : List (List Char)) : (cleanGrid g).length = g.length := by
  simp [cleanGrid]

theorem cleanGrid_getD (g : List (List Char)) (i : Nat) :
    (cleanGrid g).getD i [] = cleanRow (g.getD i []) := by
  by_cases h : i < g.length
  · rw [List.getD_eq_getElem _ _ (by simpa [cleanGrid] using h), List.getD_eq_getElem _ _ h]
    simp [cleanGrid]
  · rw [List.getD_eq_default _ _ (by simp [cleanGrid]; omega),
      List.getD_eq_default _ _ (by omega)]
    rfl

theorem star_not_mem_cleanGrid (g : List (List Char)) :
    ∀ row ∈ cleanGrid g, '*' ∉ row := by
  intro row hrow
  simp only [cleanGrid, List.mem_map] at hrow
  obtain ⟨r, -, rfl⟩ := hrow
  exact star_not_mem_cleanRow r

theorem stampRow_length (sel : List (Nat × Nat)) (y : Nat) (l : List Char) :
    ∀ x, (stampRow sel y x l).length = l.length := by
  induction l with
  | nil => intro x; rfl
  | cons c cs ih => intro x; simp [stampRow, ih]

theorem stampGrid_length (sel : List (Nat × Nat)) (g : List (List Char)) :
    ∀ y, (stampGrid sel y g).length = g.length := by
  induction g with
  | nil => intro y; rfl
  | cons row rows ih => intro y; simp [stampGrid, ih]

theorem stampGrid_getD (sel : List (Nat × Nat)) (g : List (List Char)) :
    ∀ y i, (stampGrid sel y g).getD i [] = stampRow sel (y + i) 0 (g.getD i []) := by
  induction g with
  | nil => intro y i; cases i <;> rfl
  | cons row rows ih =>
    intro y i
    cases i with
    | zero => simp [stampGrid]
    | succ j =>
      show (stampGrid sel (y + 1) rows).getD j [] = stampRow sel (y + (j + 1)) 0 (rows.getD j [])
      rw [ih (y + 1) j]
      have harith : y + 1 + j = y + (j + 1) := by omega
      rw [harith]

theorem stampRow_count (sel : List (Nat × Nat)) (y : Nat) (l : List Char)
    (hl : '*' ∉ l) :
    ∀ x, (stampRow sel y x l).count '*' =
      (rowHits (fun _ => true) x l).countP (fun a => decide ((a, y) ∈ sel)) := by
  induction l with
  | nil => intro x; rfl
  | cons c cs ih =>
    intro x
    have hc : c ≠ '*' := fun h => hl (h ▸ List.mem_cons_self c cs)
    have hcs : '*' ∉ cs := fun h => hl (List.mem_cons_of_mem c h)
    by_cases hmem : (x, y) ∈ sel
    · simp [stampRow, rowHits, hmem, List.count_cons, List.countP_cons, ih hcs]
    · simp [stampRow, rowHits, hmem, List.count_cons, List.countP_cons, ih hcs, hc]

theorem countDiamonds_stampGrid (sel : List (Nat × Nat)) (g : List (List Char))
    (hg : ∀ row ∈ g, '*' ∉ row) :
    ∀ y, countDiamonds (stampGrid sel y g) =
      (gridHits (fun _ => true) y g).countP (fun q => decide (q ∈ sel)) := by
  induction g with
  | nil => intro y; rfl
  | cons row rows ih =>
    intro y
    have hrow : '*' ∉ row := hg row (List.mem_cons_self row rows)
    have hrest : ∀ r ∈ rows, '*' ∉ r := fun r hr => hg r (List.mem_cons_of_mem row hr)
    have hhead : (stampRow sel y 0 row).count '*' =
        ((rowHits (fun _ => true) 0 row).map (fun x => (x, y))).countP
          (fun q => decide (q ∈ sel)) := by
      rw [List.countP_map, stampRow_count sel y row hrow 0]
      rfl
    have hsum : countDiamonds (stampGrid sel y (row :: rows)) =
        (stampRow sel y 0 row).count '*' + countDiamonds (stampGrid sel (y + 1) rows) := by
      simp [countDiamonds, stampGrid]
    rw [hsum, hhead, ih hrest (y + 1)]
    show _ = List.countP _ (_ ++ _)
    rw [List.countP_append]

theorem natLog2F_spec (fuel : Nat) : ∀ n, 1 ≤ n → n ≤ fuel + 1 →
    2 ^ natLog2F fuel n ≤ n ∧ n < 2 ^ (natLog2F fuel n + 1) := by
  induction fuel with
  | zero =>
    intro n h1 h2
    have hn : n = 1 := by omega
    subst hn
    simp [natLog2F]
  | succ fuel ih =>
    intro n h1 h2
    by_cases hle : n ≤ 1
    · have hn : n = 1 := by omega
      subst hn
      simp [natLog2F]
    · have h2n : 2 ≤ n := by omega
      have hrec := ih (n / 2) (by omega) (by omega)
      have hpow : 2 ^ (natLog2F fuel (n / 2) + 1) = 2 * 2 ^ natLog2F fuel (n / 2) := by
        rw [pow_succ]; ring
      have hpow2 : 2 ^ (natLog2F fuel (n / 2) + 1 + 1) =
          2 * 2 ^ (natLog2F fuel (n / 2) + 1) := by
        rw [pow_succ _ (natLog2F fuel (n / 2) + 1)]; ring
      rw [show natLog2F (fuel + 1) n = natLog2F fuel (n / 2) + 1 from by
        rw [natLog2F, if_neg (by omega)]]
      omega

/-- The defining property of `natLog2`, justifying the overflow test of
`roundFloat`: for `1 ≤ mm`, `2 ^ k ≤ mm` iff `k ≤ natLog2 mm`. -/
theorem natLog2_le_iff (n k : Nat) (h1 : 1 ≤ n) : 2 ^ k ≤ n ↔ k ≤ natLog2 n := by
  obtain ⟨hlow, hhigh⟩ := natLog2F_spec n n h1 (by omega)
  constructor
  · intro h
    by_contra hlt
    have hk : natLog2 n + 1 ≤ k := by simpa [natLog2] using hlt
    have : 2 ^ (natLog2 n + 1) ≤ 2 ^ k := Nat.pow_le_pow_right (by omega) hk
    simp only [natLog2] at this hhigh
    omega
  · intro h
    have : 2 ^ k ≤ 2 ^ natLog2 n := Nat.pow_le_pow_right (by omega) (by simpa [natLog2] using h)
    simp only [natLog2] at this hlow ⊢
    omega

theorem selectFrom_map (valid : List (Nat × Nat)) (R : Nat) (f : Nat → Nat) :
    ∀ is : List Nat,
      (∀ i ∈ is, pyIdx i valid.length R = some (f i)) →
      (∀ i ∈ is, f i < valid.length) →
      selectFrom valid R is = some (is.map (fun i => valid.getD (f i) (0, 0))) := by
  intro is
  induction is with
  | nil => intro _ _; rfl
  | cons i is ih =>
    intro hf hlt
    have hfi := hf i (List.mem_cons_self i is)
    have hlti := hlt i (List.mem_cons_self i is)
    rw [selectFrom, hfi]
    dsimp only
    rw [if_pos hlti, ih (fun j hj => hf j (List.mem_cons_of_mem i hj))
      (fun j hj => hlt j (List.mem_cons_of_mem i hj))]
    rfl

theorem kindOf_eq_diamond (c : Char) : kindOf c = CellKind.Diamond ↔ c = '*' := by
  constructor
  · intro h
    unfold kindOf at h
    split at h <;> simp_all
  · rintro rfl
    rfl

theorem cleanRow_getD (l : List Char) (x : Nat) :
    (cleanRow l).getD x ' ' = if l.getD x ' ' = '*' then '.' else l.getD x ' ' := by
  by_cases h : x < l.length
  · rw [List.getD_eq_getElem _ _ (by simpa [cleanRow] using h), List.getD_eq_getElem _ _ h]
    simp [cleanRow]
  · rw [List.getD_eq_default _ _ (by simp [cleanRow]; omega), List.getD_eq_default _ _ (by omega)]
    simp

theorem rowAt_cleanGrid (g : List (List Char)) (y : Nat) :
    rowAt (cleanGrid g) y = cleanRow (rowAt g y) :=
  cleanGrid_getD g y

theorem charAt_cleanGrid (g : List (List Char)) (x y : Nat) :
    charAt (cleanGrid g) x y = if charAt g x y = '*' then '.' else charAt g x y := by
  rw [charAt, rowAt_cleanGrid, cleanRow_getD]
  rfl

theorem rowHits_pairwise (p : Char → Bool) (l : List Char) :
    ∀ x, List.Pairwise (· < ·) (rowHits p x l) := by
  induction l with
  | nil => intro x; simp [rowHits]
  | cons c cs ih =>
    intro x
    by_cases h : p c
    · simp only [rowHits, h, if_pos, List.singleton_append]
      exact List.Pairwise.cons (fun b hb => by have := rowHits_lb p cs (x + 1) b hb; omega)
        (ih (x + 1))
    · simpa [rowHits, h] using ih (x + 1)

theorem gridHits_pairwise (p : Char → Bool) (g : List (List Char)) :
    ∀ y, List.Pairwise rowMajorLt (gridHits p y g) := by
  induction g with
  | nil => intro y; simp [gridHits]
  | cons row rows ih =>
    intro y
    rw [gridHits, List.pairwise_append]
    refine ⟨?_, ih (y + 1), ?_⟩
    · refine List.Pairwise.map _ ?_ (rowHits_pairwise p row 0)
      intro a b hab
      exact Or.inr ⟨rfl, hab⟩
    · intro a ha b hb
      obtain ⟨x, -, rfl⟩ := List.mem_map.mp ha
      have := gridHits_snd_lb p rows (y + 1) b.1 b.2 (by simpa using hb)
      exact Or.inl (by simp; omega)

theorem mem_validPositions (g : List (List Char)) (x y : Nat) :
    (x, y) ∈ validPositions g ↔
      y < g.length ∧ x < (rowAt g y).length ∧ isCandidateChar (charAt g x y) := by
  rw [validPositions, mem_gridHits]
  constructor
  · rintro ⟨j, hj, rfl, hr⟩
    rw [mem_rowHits] at hr
    obtain ⟨i, hi, rfl, hp⟩ := hr
    refine ⟨by omega, ?_, ?_⟩
    · show 0 + i < (rowAt g (0 + j)).length
      rw [Nat.zero_add, Nat.zero_add]
      exact hi
    · show isCandidateChar (charAt g (0 + i) (0 + j))
      rw [Nat.zero_add, Nat.zero_add]
      exact hp
  · rintro ⟨hy, hx, hc⟩
    refine ⟨y, hy, (Nat.zero_add y).symm, ?_⟩
    rw [mem_rowHits]
    exact ⟨x, hx, (Nat.zero_add x).symm, hc⟩

/-! ### Claim C1 -/

/-- Claim C1, counterexample.  As stated the claim quantifies over every
required count `R ≤ walkable(G)`, including `R = 0`; but for `R = 0` the
script reaches `step = len(valid_positions) / required` and raises
`ZeroDivisionError` instead of returning a grid: on the one-cell grid
`["."]` with one walkable cell and `R = 0 ≤ 1`, the run produces no grid
at all. -/
theorem redistribute_zero_required :
    (validPositions (cleanGrid (toRows ["."]))).length = 1 ∧
    redistributeGrid (toRows ["."]) 0 = none := by
  constructor
  · rfl
  · rfl

/-- Claim C1 (amended: `1 ≤ R`, and the selection's float-computed
indices well-behaved).  For every grid `G` and required count `R` with
`1 ≤ R` and `R` at most the number of walkable (`.`/space) cells after
diamond removal, if the IEEE-double indices `int(i * step)` (the values
`f i` of `pyIdx`) are all within the candidate list and pairwise distinct
— which holds at realistic sizes, as in the witness, but is a property of
the float arithmetic rather than a consequence of `R ≤ N`, since for
astronomically large `N` rounding can produce collisions or out-of-range
indices — then the redistributor succeeds and returns a grid with exactly
`R` diamond characters, the same number of rows, and each row of the same
length as in `G`. -/
theorem redistribute_exact_diamonds (g : List (List Char)) (R : Nat) (f : Nat → Nat)
    (h1 : 1 ≤ R) (h2 : R ≤ (validPositions (cleanGrid g)).length)
    (hf : ∀ i, i < R →
      pyIdx i (validPositions (cleanGrid g)).length R = some (f i))
    (hlt : ∀ i, i < R → f i < (validPositions (cleanGrid g)).length)
    (hinj : ∀ i j, i < R → j < R → f i = f j → i = j) :
    ∃ out, redistributeGrid g R = some (false, out) ∧ countDiamonds out = R ∧
      out.length = g.length ∧ ∀ i, (out.getD i []).length = (g.getD i []).length := by
  have hnotlt : ¬ (validPositions (cleanGrid g)).length < R := by omega
  have hR0 : ¬ R = 0 := by omega
  have hsel : selectedPositions (validPositions (cleanGrid g)) R =
      some ((List.range R).map
        (fun i => (validPositions (cleanGrid g)).getD (f i) (0, 0))) := by
    rw [selectedPositions]
    exact selectFrom_map _ R f (List.range R)
      (fun i hi => hf i (List.mem_range.mp hi))
      (fun i hi => hlt i (List.mem_range.mp hi))
  set sel := (List.range R).map
    (fun i => (validPositions (cleanGrid g)).getD (f i) (0, 0)) with hseldef
  refine ⟨stampGrid sel 0 (cleanGrid g), ?_, ?_, ?_, ?_⟩
  · simp only [redistributeGrid]
    rw [if_neg hnotlt, if_neg hR0, hsel]
  · have hvnodup : (validPositions (cleanGrid g)).Nodup := gridHits_nodup _ _ 0
    have hselnodup : sel.Nodup := by
      rw [hseldef]
      refine List.Nodup.map_on ?_ (List.nodup_range R)
      intro i hi j hj hEq
      rw [List.mem_range] at hi hj
      by_contra hne
      have hne2 : f i ≠ f j := fun h => hne (hinj i j hi hj h)
      apply hne2
      rw [List.getD_eq_getElem _ _ (hlt i hi), List.getD_eq_getElem _ _ (hlt j hj)] at hEq
      have hinjget := List.nodup_iff_injective_get.mp hvnodup
      have hfin : (⟨f i, hlt i hi⟩ : Fin _) = ⟨f j, hlt j hj⟩ :=
        hinjget (by simpa [List.get_eq_getElem] using hEq)
      exact congrArg Fin.val hfin
    have hsub : ∀ q ∈ sel, q ∈ allCells (cleanGrid g) := by
      intro q hq
      rw [hseldef] at hq
      simp only [List.mem_map, List.mem_range] at hq
      obtain ⟨i, hi, rfl⟩ := hq
      rw [List.getD_eq_getElem _ _ (hlt i hi)]
      exact gridHits_subset_allCells _ _ _ (List.getElem_mem (hlt i hi))
    rw [countDiamonds_stampGrid _ _ (star_not_mem_cleanGrid g) 0]
    calc (gridHits (fun _ => true) 0 (cleanGrid g)).countP (fun q => decide (q ∈ sel))
        = sel.length := countP_mem_of_nodup _ _ (allCells_nodup (cleanGrid g)) hselnodup hsub
      _ = R := by rw [hseldef]; simp
  · rw [stampGrid_length, cleanGrid_length]
  · intro i
    rw [stampGrid_getD, stampRow_length, cleanGrid_getD, cleanRow_length]

/-- Witness for claim C1's theorem at a concrete grid: 9 candidates,
required 3, float indices 0, 3, 6 (step `9/3 = 3.0`, exact). -/
theorem redistribute_exact_diamonds_witness :
    (1 ≤ 3 ∧ 3 ≤ (validPositions (cleanGrid (toRows ["..*..", ".W..."]))).length ∧
      (∀ i, i < 3 →
        pyIdx i (validPositions (cleanGrid (toRows ["..*..", ".W..."]))).length 3 =
          some (3 * i)) ∧
      (∀ i, i < 3 → 3 * i < (validPositions (cleanGrid (toRows ["..*..", ".W..."]))).length)) ∧
    ∃ out, redistributeGrid (toRows ["..*..", ".W..."]) 3 = some (false, out) ∧
      countDiamonds out = 3 ∧ out.length = (toRows ["..*..", ".W..."]).length ∧
      ∀ i, (out.getD i []).length = ((toRows ["..*..", ".W..."]).getD i []).length :=
  ⟨⟨by decide, by decide, by decide, by decide⟩,
    redistribute_exact_diamonds _ 3 (fun i => 3 * i) (by decide) (by decide) (by decide)
      (by decide) (by
        intro i j h1 h2 h3
        have h4 : 3 * i = 3 * j := h3
        omega)⟩

/-! ### Claim C10 -/

/-- Claim C10.  When the candidate cells after diamond removal are fewer
than the required count, `redistribute_cave_diamonds` returns the input
pattern text exactly unchanged (diamonds included), together with the
error signal: a failed redistribution never partially modifies a level. -/
theorem redistribute_unchanged_on_error (t : List Char) (R : Nat)
    (h : (validPositions (cleanGrid (splitLines (pyStrip t)))).length < R) :
    redistribute_cave_diamonds t R = some (true, t) := by
  simp [redistribute_cave_diamonds, redistributeGrid, h]

/-- Witness for claim C10's theorem at a concrete pattern. -/
theorem redistribute_unchanged_on_error_witness :
    (validPositions (cleanGrid (splitLines (pyStrip "*W\nW.".toList)))).length < 5 ∧
    redistribute_cave_diamonds "*W\nW.".toList 5 = some (true, "*W\nW.".toList) :=
  ⟨by decide, redistribute_unchanged_on_error _ 5 (by decide)⟩

/-! ### Claim C5 -/

/-- Claim C5, counterexample.  The claim counts the walkable Empty/Dirt
cells of the grid as given: the pattern `"***"` has zero Empty or Dirt
cells, fewer than the required count 1, yet redistribution does not fail —
the diamond-removal pass first turns every `*` into `.`, so the cleaned
grid has three candidates and the run succeeds. -/
theorem redistribute_no_error_with_zero_empty_dirt :
    (validPositions (splitLines (pyStrip "***".toList))).length = 0 ∧
    (redistribute_cave_diamonds "***".toList 1).map (fun r => r.1) = some false := by
  constructor
  · rfl
  · rfl

/-- Claim C5 (amended: the walkable cells are counted after diamond
removal).  When the candidate list of the cleaned grid is shorter than
`required`, the script signals the Insufficient-Space error (the printed
error message, modelled as the `true` flag), an outcome distinguishable
from a successful rewrite. -/
theorem redistribute_insufficient_signal (t : List Char) (R : Nat)
    (h : (validPositions (cleanGrid (splitLines (pyStrip t)))).length < R) :
    (redistribute_cave_diamonds t R).map (fun r => r.1) = some true := by
  simp [redistribute_cave_diamonds, redistributeGrid, h]

/-- Witness for claim C5's amended theorem at a concrete pattern. -/
theorem redistribute_insufficient_signal_witness :
    (validPositions (cleanGrid (splitLines (pyStrip "W".toList)))).length < 1 ∧
    (redistribute_cave_diamonds "W".toList 1).map (fun r => r.1) = some true :=
  ⟨by decide, redistribute_insufficient_signal _ 1 (by decide)⟩

/-! ### Claim C4 -/

/-- Claim C4, counterexample.  Two steps of the claim fail.  Step (1)
says diamonds are "converted back to Empty", but the script replaces `*`
by `.`, which is the Dirt cell (Empty is the space character, spec
section 6): on the grid `["**"]` with required count 1, the unselected
former diamond cell `(1, 0)` ends as `.` (Dirt), not as Empty.  Step (3)
says the selected index is `floor(i * step)` with `step = N /
required_count`; but the program computes `int(i * step)` in IEEE double
arithmetic, which at `N = 30` candidates, `required = 22`, `i = 11`
yields `int(11 * (30/22)) = int(14.999999999999998) = 14` while the
exact floor is `11 * 30 / 22 = 15`. -/
theorem redistribute_converts_to_dirt :
    redistributeGrid (toRows ["**"]) 1 = some (false, [['*', '.']]) ∧
    kindOf (charAt (toRows ["**"]) 1 0) = CellKind.Diamond ∧
    kindOf (charAt [['*', '.']] 1 0) = CellKind.Dirt ∧
    CellKind.Dirt ≠ CellKind.Empty ∧
    pyIdx 11 30 22 = some 14 ∧
    11 * 30 / 22 = 15 := by
  refine ⟨by decide, rfl, rfl, by decide, by decide, by decide⟩

/-- Claim C4 (amended: diamonds are converted back to Dirt, not Empty,
and the selection index is the float `int(i * step)`, which is not always
the exact floor).  (1) The removal pass turns every Diamond cell into
Dirt and leaves every other cell unchanged; (2) the candidate list
enumerates exactly the Empty/Dirt coordinates, in row-major
(top-to-bottom, left-to-right) order; (3) the selection takes the
candidate at index `int(i * step)` computed in IEEE double arithmetic
(`pyIdx`) for each `i` — when each such index is defined and in range the
selection is exactly the list of those candidates — which for `N = 10`
candidates and `required = 3` agrees with the exact floors, giving
indices 0, 3 and 6. -/
theorem redistribute_steps_spec :
    (∀ g x y, kindOf (charAt g x y) = CellKind.Diamond →
        kindOf (charAt (cleanGrid g) x y) = CellKind.Dirt) ∧
    (∀ g x y, kindOf (charAt g x y) ≠ CellKind.Diamond →
        charAt (cleanGrid g) x y = charAt g x y) ∧
    (∀ g, List.Pairwise rowMajorLt (validPositions g)) ∧
    (∀ g x y, (x, y) ∈ validPositions g ↔
        y < g.length ∧ x < (rowAt g y).length ∧ isCandidateChar (charAt g x y)) ∧
    (∀ (v : List (Nat × Nat)) (R : Nat) (f : Nat → Nat),
        (∀ i, i < R → pyIdx i v.length R = some (f i)) →
        (∀ i, i < R → f i < v.length) →
        selectedPositions v R = some ((List.range R).map (fun i => v.getD (f i) (0, 0)))) ∧
    (List.range 3).map (fun i => pyIdx i 10 3) = [some 0, some 3, some 6] ∧
    (List.range 3).map (fun i => i * 10 / 3) = [0, 3, 6] := by
  refine ⟨?_, ?_, ?_, ?_, ?_, by decide, by decide⟩
  · intro g x y h
    rw [kindOf_eq_diamond] at h
    rw [charAt_cleanGrid, if_pos h]
    rfl
  · intro g x y h
    have h2 : charAt g x y ≠ '*' := fun hc => h ((kindOf_eq_diamond _).mpr hc)
    rw [charAt_cleanGrid, if_neg h2]
  · intro g
    exact gridHits_pairwise _ g 0
  · intro g x y
    exact mem_validPositions g x y
  · intro v R f hf hlt
    rw [selectedPositions]
    exact selectFrom_map v R f (List.range R)
      (fun i hi => hf i (List.mem_range.mp hi))
      (fun i hi => hlt i (List.mem_range.mp hi))

/-- Witness for claim C4's amended theorem at concrete cells. -/
theorem redistribute_steps_spec_witness :
    kindOf (charAt (toRows ["*"]) 0 0) = CellKind.Diamond ∧
    kindOf (charAt (cleanGrid (toRows ["*"])) 0 0) = CellKind.Dirt :=
  ⟨by decide, redistribute_steps_spec.1 (toRows ["*"]) 0 0 (by decide)⟩

/-! ### Flood-fill lemmas -/

theorem inBoundsZ_toNat_mem (g : List (List Char)) (nx ny : Int)
    (h : inBoundsZ g nx ny = true) : (nx.toNat, ny.toNat) ∈ allCells g := by
  simp only [inBoundsZ, Bool.decide_and, Bool.and_eq_true, decide_eq_true_eq] at h
  obtain ⟨h1, h2, h3, h4⟩ := h
  rw [mem_allCells]
  constructor
  · show ny.toNat < g.length
    omega
  · show nx.toNat < (rowAt g ny.toNat).length
    omega

theorem expandRel_refl (g : List (List Char)) (vq : List (Nat × Nat) × List (Nat × Nat)) :
    ExpandRel g vq vq :=
  ⟨fun _ h => h, fun _ h => h, id, fun _ hc => Or.inl hc, fun h => h, rfl,
    fun _ hc hnc => absurd hc hnc⟩

theorem expandRel_trans (g : List (List Char))
    {a b c : List (Nat × Nat) × List (Nat × Nat)}
    (h1 : ExpandRel g a b) (h2 : ExpandRel g b c) : ExpandRel g a c := by
  obtain ⟨a1, a2, a3, a4, a5, a6, a7⟩ := h1
  obtain ⟨b1, b2, b3, b4, b5, b6, b7⟩ := h2
  refine ⟨fun x hx => b1 x (a1 x hx), fun x hx => b2 x (a2 x hx),
    fun h => b3 (a3 h), ?_, fun h => b5 (a5 h), by omega, ?_⟩
  · intro x hx
    rcases b4 x hx with h | h
    · exact a4 x h
    · exact Or.inr h
  · intro x hx hnx
    by_cases hmid : x ∈ b.1
    · exact b2 x (a7 x hmid hnx)
    · exact b7 x hx hmid

theorem expandStep_rel (g : List (List Char)) (q : Nat × Nat)
    (vq : List (Nat × Nat) × List (Nat × Nat)) (d : Int × Int) :
    ExpandRel g vq (expandStep g q vq d) := by
  unfold expandStep
  by_cases hb : inBoundsZ g ((q.1 : Int) + d.1) ((q.2 : Int) + d.2) = true
  · rw [if_pos hb]
    set n : Nat × Nat := (((q.1 : Int) + d.1).toNat, ((q.2 : Int) + d.2).toNat) with hn
    by_cases hadd : n ∉ vq.1 ∧ walkableChar (charAt g n.1 n.2) = true
    · rw [if_pos hadd]
      have hnAll : n ∈ allCells g := inBoundsZ_toNat_mem g _ _ hb
      refine ⟨fun c hc => List.mem_append_left _ hc,
        fun c hc => List.mem_append_left _ hc, ?_, ?_, ?_,
        by simp only [List.length_append]; omega, ?_⟩
      · intro hv
        refine List.Nodup.append hv (List.nodup_singleton n) ?_
        intro a ha ha2
        rw [List.mem_singleton] at ha2
        exact hadd.1 (ha2 ▸ ha)
      · intro c hc
        rcases List.mem_append.mp hc with h | h
        · exact Or.inl h
        · rw [List.mem_singleton] at h
          exact Or.inr (h ▸ hnAll)
      · intro hsub c hc
        rcases List.mem_append.mp hc with h | h
        · exact List.mem_append_left _ (hsub c h)
        · exact List.mem_append_right _ h
      · intro c hc hnc
        rcases List.mem_append.mp hc with h | h
        · exact absurd h hnc
        · exact List.mem_append_right _ h
    · rw [if_neg hadd]
      exact expandRel_refl g vq
  · rw [if_neg hb]
    exact expandRel_refl g vq

theorem expand_rel (g : List (List Char)) (q : Nat × Nat) :
    ∀ (ds : List (Int × Int)) (vq : List (Nat × Nat) × List (Nat × Nat)),
      ExpandRel g vq (ds.foldl (expandStep g q) vq) := by
  intro ds
  induction ds with
  | nil => exact fun vq => expandRel_refl g vq
  | cons d ds ih =>
    intro vq
    exact expandRel_trans g (expandStep_rel g q vq d) (ih (expandStep g q vq d))

theorem bfsLoop_invariant (g : List (List Char)) : ∀ (fuel : Nat)
    (queue visited reached : List (Nat × Nat)),
    queue.length + (totalCells g - visited.length) < fuel →
    visited.Nodup →
    (∀ q ∈ visited, q ∈ allCells g) →
    (∀ q ∈ queue, q ∈ visited) →
    reached.Nodup →
    (∀ q ∈ reached, q ∈ diamondsOf g ∧ q ∈ visited) →
    (∀ d ∈ visited, d ∈ diamondsOf g → d ∉ queue → d ∈ reached) →
    (bfsLoop g fuel queue visited reached).2.Nodup ∧
    (∀ q ∈ (bfsLoop g fuel queue visited reached).2,
        q ∈ diamondsOf g ∧ q ∈ (bfsLoop g fuel queue visited reached).1) ∧
    (∀ d ∈ (bfsLoop g fuel queue visited reached).1, d ∈ diamondsOf g →
        d ∈ (bfsLoop g fuel queue visited reached).2) ∧
    (∀ q ∈ (bfsLoop g fuel queue visited reached).1, q ∈ allCells g) ∧
    (∀ q ∈ visited, q ∈ (bfsLoop g fuel queue visited reached).1) := by
  intro fuel
  induction fuel with
  | zero =>
    intro queue visited reached hfuel
    exact absurd hfuel (Nat.not_lt_zero _)
  | succ fuel ih =>
    intro queue visited reached hfuel hvn hvb hqv hrn hrd hcov
    cases queue with
    | nil =>
      show (visited, reached).2.Nodup ∧ _
      refine ⟨hrn, fun q hq => hrd q hq, fun d hd hdm => ?_, hvb, fun q hq => hq⟩
      exact hcov d hd hdm (List.not_mem_nil d)
    | cons q qs =>
      have hq_in_v : q ∈ visited := hqv q (List.mem_cons_self q qs)
      obtain ⟨hm1, hm2, hnd, hbound, hqsub, hlen, hnew⟩ :
          ExpandRel g (visited, qs) (expand g q visited qs) :=
        expand_rel g q dirs (visited, qs)
      dsimp only at hm1 hm2 hnd hbound hqsub hlen hnew
      have hvn2 : (expand g q visited qs).1.Nodup := hnd hvn
      have hvb2 : ∀ c ∈ (expand g q visited qs).1, c ∈ allCells g := by
        intro c hc
        rcases hbound c hc with h | h
        · exact hvb c h
        · exact h
      have hqv2 : ∀ c ∈ (expand g q visited qs).2, c ∈ (expand g q visited qs).1 :=
        hqsub (fun c hc => hqv c (List.mem_cons_of_mem _ hc))
      have hr_sub : ∀ c ∈ reached,
          c ∈ (if q ∈ diamondsOf g ∧ q ∉ reached then reached ++ [q] else reached) := by
        intro c hc
        split
        · exact List.mem_append_left _ hc
        · exact hc
      have hrn2 : (if q ∈ diamondsOf g ∧ q ∉ reached then reached ++ [q] else reached).Nodup := by
        split
        · rename_i hcond
          refine List.Nodup.append hrn (List.nodup_singleton q) ?_
          intro a ha ha2
          rw [List.mem_singleton] at ha2
          exact hcond.2 (ha2 ▸ ha)
        · exact hrn
      have hrd2 : ∀ c ∈ (if q ∈ diamondsOf g ∧ q ∉ reached then reached ++ [q] else reached),
          c ∈ diamondsOf g ∧ c ∈ (expand g q visited qs).1 := by
        intro c hc
        have : c ∈ diamondsOf g ∧ c ∈ visited := by
          revert hc
          split
          · rename_i hcond
            intro hc
            rcases List.mem_append.mp hc with h | h
            · exact hrd c h
            · rw [List.mem_singleton] at h
              exact ⟨h ▸ hcond.1, h ▸ hq_in_v⟩
          · intro hc
            exact hrd c hc
        exact ⟨this.1, hm1 c this.2⟩
      have hq_in_r2 : q ∈ diamondsOf g →
          q ∈ (if q ∈ diamondsOf g ∧ q ∉ reached then reached ++ [q] else reached) := by
        intro hqd
        split
        · exact List.mem_append_right _ (List.mem_singleton_self q)
        · rename_i hcond
          rw [not_and_or, not_not] at hcond
          rcases hcond with h | h
          · exact absurd hqd h
          · exact h
      have hcov2 : ∀ d ∈ (expand g q visited qs).1, d ∈ diamondsOf g →
          d ∉ (expand g q visited qs).2 →
          d ∈ (if q ∈ diamondsOf g ∧ q ∉ reached then reached ++ [q] else reached) := by
        intro d hd hdm hdq
        by_cases hdv : d ∈ visited
        · by_cases hdq2 : d = q
          · exact hdq2 ▸ hq_in_r2 (hdq2 ▸ hdm)
          · have hdqs : d ∉ qs := fun h => hdq (hm2 d h)
            have hdqq : d ∉ q :: qs := by
              rw [List.mem_cons, not_or]
              exact ⟨hdq2, hdqs⟩
            exact hr_sub d (hcov d hdv hdm hdqq)
        · exact absurd (hnew d hd hdv) hdq
      have hv1le : (expand g q visited qs).1.length ≤ totalCells g := by
        have h1 := List.Subperm.length_le
          (List.subperm_of_subset hvn2 (fun c hc => hvb2 c hc))
        rwa [allCells_length] at h1
      have hvisle : visited.length ≤ (expand g q visited qs).1.length :=
        List.Subperm.length_le (List.subperm_of_subset hvn (fun c hc => hm1 c hc))
      have hfuel2 : (expand g q visited qs).2.length +
          (totalCells g - (expand g q visited qs).1.length) < fuel := by
        have hflat : (q :: qs).length = qs.length + 1 := by simp
        omega
      have IH := ih (expand g q visited qs).2 (expand g q visited qs).1
        (if q ∈ diamondsOf g ∧ q ∉ reached then reached ++ [q] else reached)
        hfuel2 hvn2 hvb2 hqv2 hrn2 hrd2 hcov2
      show (bfsLoop g fuel (expand g q visited qs).2 (expand g q visited qs).1
        (if q ∈ diamondsOf g ∧ q ∉ reached then reached ++ [q] else reached)).2.Nodup ∧ _
      exact ⟨IH.1, IH.2.1, IH.2.2.1, IH.2.2.2.1,
        fun c hc => IH.2.2.2.2 c (hm1 c hc)⟩

theorem floodFill_postcondition (g : List (List Char)) (p : Nat × Nat)
    (hp : p ∈ allCells g) :
    (floodReached g p).Nodup ∧
    (∀ q ∈ floodReached g p, q ∈ diamondsOf g ∧ q ∈ floodVisited g p) ∧
    (∀ d ∈ floodVisited g p, d ∈ diamondsOf g → d ∈ floodReached g p) ∧
    (∀ q ∈ floodVisited g p, q ∈ allCells g) := by
  have hT : 1 ≤ totalCells g := by
    have h1 : 0 < (allCells g).length := List.length_pos_of_mem hp
    rwa [allCells_length] at h1
  have H := bfsLoop_invariant g (totalCells g + 1) [p] [p] []
    (by simp only [List.length_singleton]; omega)
    (List.nodup_singleton p)
    (by intro q hq; rw [List.mem_singleton] at hq; exact hq ▸ hp)
    (fun q hq => hq)
    List.nodup_nil
    (by intro q hq; exact absurd hq (List.not_mem_nil q))
    (by
      intro d hd hdm hdq
      rw [List.mem_singleton] at hd
      exact absurd (hd ▸ List.mem_singleton_self p) hdq)
  exact ⟨H.1, H.2.1, H.2.2.1, H.2.2.2.1⟩

theorem countStar_eq_countP (l : List Char) :
    l.count '*' = l.countP (fun c => decide (c = '*')) := by
  induction l with
  | nil => rfl
  | cons c cs ih =>
    by_cases h : c = '*' <;>
      simp [List.count_cons, List.countP_cons, h, ih]

theorem diamondsOf_length (g : List (List Char)) :
    (diamondsOf g).length = countDiamonds g := by
  rw [diamondsOf, gridHits_length]
  unfold countDiamonds
  induction g with
  | nil => rfl
  | cons row rows ih =>
    simp only [List.map_cons, List.sum_cons, ih, countStar_eq_countP]

theorem walkableChar_iff_kind (c : Char) :
    walkableChar c = true ↔
      kindOf c ∈ [CellKind.Empty, CellKind.Dirt, CellKind.Diamond,
        CellKind.Exit, CellKind.Enemy, CellKind.Player] := by
  constructor
  · intro h
    simp only [walkableChar, Bool.decide_or, Bool.or_eq_true, decide_eq_true_eq] at h
    rcases h with rfl | rfl | rfl | rfl | rfl | rfl <;> decide
  · intro h
    unfold kindOf at h
    split at h <;> simp_all [walkableChar]

/-! ### Claim C2 -/

/-- Claim C2.  For a grid with exactly one Player cell, the BFS flood
fill (defined over the four orthogonal neighbor offsets, walking exactly
through the characters whose cell kinds are Empty, Dirt, Diamond, Exit,
Enemy and Player — Wall and the special blocking kinds are never
enqueued) records as reachable exactly the visited diamond cells, and the
returned unreachable count is the total diamond count of the grid minus
the number of reachable diamonds. -/
theorem flood_fill_spec (g : List (List Char)) (p : Nat × Nat)
    (hp : playersOf g = [p]) :
    (∀ c, walkableChar c = true ↔
      kindOf c ∈ [CellKind.Empty, CellKind.Dirt, CellKind.Diamond,
        CellKind.Exit, CellKind.Enemy, CellKind.Player]) ∧
    (∀ d, d ∈ floodReached g p ↔ d ∈ floodVisited g p ∧ d ∈ diamondsOf g) ∧
    (floodReached g p).length ≤ countDiamonds g ∧
    flood_fill_lines g =
      ((countDiamonds g - (floodReached g p).length) == 0,
        (floodReached g p).length,
        countDiamonds g - (floodReached g p).length) := by
  have hpmem : p ∈ playersOf g := by rw [hp]; exact List.mem_singleton_self p
  have hpAll : p ∈ allCells g := gridHits_subset_allCells _ g p hpmem
  have hgne : g ≠ [] := by
    intro hg
    rw [hg] at hpmem
    exact absurd hpmem (List.not_mem_nil p)
  obtain ⟨hrn, hrd, hcover, hvb⟩ := floodFill_postcondition g p hpAll
  have hpp : playerPos g = some p := by rw [playerPos, hp]; rfl
  refine ⟨walkableChar_iff_kind, ?_, ?_, ?_⟩
  · intro d
    constructor
    · intro hd
      exact ⟨(hrd d hd).2, (hrd d hd).1⟩
    · intro hd
      exact hcover d hd.1 hd.2
  · have hsub : ∀ q ∈ floodReached g p, q ∈ diamondsOf g := fun q hq => (hrd q hq).1
    have := List.Subperm.length_le (List.subperm_of_subset hrn hsub)
    rwa [diamondsOf_length] at this
  · rw [flood_fill_lines, if_neg (by simpa [List.isEmpty_iff] using hgne), hpp]
    rw [diamondsOf_length]

/-- Witness for claim C2's theorem: the end-to-end scenario grid
`["WWWWW", "W.P.W", "W.*.W", "WWWWW"]` with Player at `(2, 1)` and
Diamond at `(2, 2)`: the reachable set is `[(2, 2)]` and the unreachable
count is 0. -/
theorem flood_fill_spec_witness :
    playersOf scenarioGrid = [(2, 1)] ∧
    floodReached scenarioGrid (2, 1) = [(2, 2)] ∧
    flood_fill_lines scenarioGrid = (true, 1, 0) ∧
    (∀ d, d ∈ floodReached scenarioGrid (2, 1) ↔
      d ∈ floodVisited scenarioGrid (2, 1) ∧ d ∈ diamondsOf scenarioGrid) :=
  ⟨by decide, by decide, by decide,
    (flood_fill_spec scenarioGrid (2, 1) (by decide)).2.1⟩

/-! ### Claim C3 -/

/-- Claim C3, counterexample.  A grid with no Player cell does not get a
distinct Invalid-Level signal: `flood_fill_check` returns the very same
triple `(False, 0, total diamonds)` that it returns for a grid that has a
spawn and zero reachable diamonds, so a caller cannot distinguish the two
outcomes. -/
theorem flood_fill_no_player_indistinguishable :
    playersOf (toRows ["*WW"]) = [] ∧
    playersOf (toRows ["PW*"]) = [(0, 0)] ∧
    flood_fill_lines (toRows ["*WW"]) = (false, 0, 1) ∧
    flood_fill_lines (toRows ["*WW"]) = flood_fill_lines (toRows ["PW*"]) := by
  refine ⟨by decide, by decide, by decide, by decide⟩

/-- Claim C3 (amended).  On a nonempty grid with no Player cell the
checker returns `(False, 0, total diamonds)`: the failure flag is set and
every diamond is counted unreachable, but no distinct Invalid-Level error
is raised — the result can coincide with that of a well-formed grid whose
diamonds are all unreachable. -/
theorem flood_fill_no_player (g : List (List Char)) (hne : g ≠ [])
    (hp : playersOf g = []) :
    flood_fill_lines g = (false, 0, countDiamonds g) := by
  have hpp : playerPos g = none := by rw [playerPos, hp]; rfl
  rw [flood_fill_lines, if_neg (by simpa [List.isEmpty_iff] using hne), hpp]
  rw [diamondsOf_length]

/-- Witness for claim C3's amended theorem at a concrete grid. -/
theorem flood_fill_no_player_witness :
    flood_fill_lines (toRows ["*WW"]) = (false, 0, countDiamonds (toRows ["*WW"])) :=
  flood_fill_no_player (toRows ["*WW"]) (by decide) (by decide)

/-! ### Sealed-detector lemmas -/

theorem cellAt_nat (g : List (List Char)) (x y : Nat) (hy : y < g.length) :
    cellAt g ↑x ↑y = if x < (rowAt g y).length then (rowAt g y).getD x 'W' else 'W' := by
  unfold cellAt
  rw [Int.toNat_natCast, Int.toNat_natCast]
  by_cases hx : x < (rowAt g y).length
  · have hcond : (0 : Int) ≤ ↑y ∧ (↑y : Int) < ↑g.length ∧ (0 : Int) ≤ ↑x ∧
        (↑x : Int) < ↑(rowAt g y).length :=
      ⟨Int.natCast_nonneg y, by exact_mod_cast hy, Int.natCast_nonneg x, by exact_mod_cast hx⟩
    rw [if_pos hcond, if_pos hx]
  · have hcond : ¬((0 : Int) ≤ ↑y ∧ (↑y : Int) < ↑g.length ∧ (0 : Int) ≤ ↑x ∧
        (↑x : Int) < ↑(rowAt g y).length) := by
      intro hc
      exact hx (by exact_mod_cast hc.2.2.2)
    rw [if_neg hcond, if_neg hx]

theorem cellAt_up (g : List (List Char)) (x y : Nat) (h1 : 1 ≤ y) (h2 : y - 1 < g.length) :
    cellAt g ↑x (↑y - 1) =
      if x < (rowAt g (y - 1)).length then (rowAt g (y - 1)).getD x 'W' else 'W' := by
  have hcast : ((y : Int) - 1) = ((y - 1 : Nat) : Int) := by omega
  rw [hcast, cellAt_nat g x (y - 1) h2]

theorem cellAt_down (g : List (List Char)) (x y : Nat) (h2 : y + 1 < g.length) :
    cellAt g ↑x (↑y + 1) =
      if x < (rowAt g (y + 1)).length then (rowAt g (y + 1)).getD x 'W' else 'W' := by
  have hcast : ((y : Int) + 1) = ((y + 1 : Nat) : Int) := by omega
  rw [hcast, cellAt_nat g x (y + 1) h2]

theorem cellAt_left (g : List (List Char)) (x y : Nat) (hy : y < g.length)
    (hx : x < (rowAt g y).length) :
    cellAt g (↑x - 1) ↑y = if 0 < x then (rowAt g y).getD (x - 1) 'W' else 'W' := by
  by_cases h : 0 < x
  · have hcast : ((x : Int) - 1) = ((x - 1 : Nat) : Int) := by omega
    rw [hcast, cellAt_nat g (x - 1) y hy, if_pos (by omega : x - 1 < (rowAt g y).length),
      if_pos h]
  · have hx0 : x = 0 := by omega
    subst hx0
    rw [if_neg h]
    unfold cellAt
    rw [if_neg]
    intro hc
    have := hc.2.2.1
    omega

theorem cellAt_right (g : List (List Char)) (x y : Nat) (hy : y < g.length) :
    cellAt g (↑x + 1) ↑y =
      if x < (rowAt g y).length - 1 then (rowAt g y).getD (x + 1) 'W' else 'W' := by
  have hcast : ((x : Int) + 1) = ((x + 1 : Nat) : Int) := by omega
  rw [hcast, cellAt_nat g (x + 1) y hy]
  exact if_congr (by omega) rfl rfl

/-! ### Claim C6 -/

/-- Claim C6.  For every grid and every Diamond cell on an interior row
(neither the first nor the last row), if all four orthogonal neighbors
are Wall — out-of-range neighbors reading as Wall via `cellAt` — then
`check_sealed_diamonds` emits the "fully sealed" flag for exactly that
coordinate. -/
theorem sealed_fully_flagged (g : List (List Char)) (x y : Nat)
    (hy0 : 0 < y) (hy1 : y + 1 < g.length)
    (hx : x < (rowAt g y).length)
    (hd : (rowAt g y).getD x ' ' = '*')
    (ha : cellAt g ↑x (↑y - 1) = 'W')
    (hb : cellAt g ↑x (↑y + 1) = 'W')
    (hl : cellAt g (↑x - 1) ↑y = 'W')
    (hr : cellAt g (↑x + 1) ↑y = 'W') :
    SealFlag.fullySealed x y ∈ check_sealed_diamonds g := by
  have hAbove : (if x < (rowAt g (y - 1)).length then (rowAt g (y - 1)).getD x 'W' else 'W')
      = 'W' := by
    rw [← cellAt_up g x y (by omega) (by omega)]
    exact ha
  have hBelow : (if x < (rowAt g (y + 1)).length then (rowAt g (y + 1)).getD x 'W' else 'W')
      = 'W' := by
    rw [← cellAt_down g x y hy1]
    exact hb
  have hLeft : (if 0 < x then (rowAt g y).getD (x - 1) 'W' else 'W') = 'W' := by
    rw [← cellAt_left g x y (by omega) hx]
    exact hl
  have hRight : (if x < (rowAt g y).length - 1 then (rowAt g y).getD (x + 1) 'W' else 'W')
      = 'W' := by
    rw [← cellAt_right g x y (by omega)]
    exact hr
  rw [check_sealed_diamonds, List.mem_flatMap]
  refine ⟨y, List.mem_range.mpr (by omega), ?_⟩
  simp only [List.mem_flatMap]
  refine ⟨x, List.mem_range.mpr hx, ?_⟩
  rw [sealIssuesAt, if_pos hd, if_pos ⟨hy0, by omega⟩]
  refine List.mem_append_left _ ?_
  rw [if_pos ⟨hAbove, hBelow, hLeft, hRight⟩]
  exact List.mem_singleton_self _

/-- Witness for claim C6's theorem: a diamond boxed in by walls on all
four sides. -/
theorem sealed_fully_flagged_witness :
    SealFlag.fullySealed 1 1 ∈ check_sealed_diamonds (toRows ["WWW", "W*W", "WWW"]) :=
  sealed_fully_flagged (toRows ["WWW", "W*W", "WWW"]) 1 1 (by decide) (by decide)
    (by decide) (by decide) (by decide) (by decide) (by decide) (by decide)

/-! ### Claim C8 -/

/-- Claim C8, counterexample.  The out-of-range-reads-as-Wall rule does
not extend to "every neighborhood inspection": the 8-neighborhood wall
count of `check-sealed-diamonds.py` skips out-of-range neighbors instead
of counting them as Wall.  On the ragged grid `["WWW", "W*", "W.W"]` the
diamond at `(1, 1)` has 7 Wall neighbors under the Wall-default reading
(`wallCountSpec`, which would trigger the "heavily walled" flag), but the
script counts 6 and emits no flag at all. -/
theorem wallCount_skips_out_of_range :
    (rowAt (toRows ["WWW", "W*", "W.W"]) 1).getD 1 ' ' = '*' ∧
    wallCountSpec (toRows ["WWW", "W*", "W.W"]) 1 1 = 7 ∧
    wallCount (toRows ["WWW", "W*", "W.W"]) 1 1 = 6 ∧
    check_sealed_diamonds (toRows ["WWW", "W*", "W.W"]) = [] := by
  refine ⟨by decide, by decide, by decide, by decide⟩

/-- Claim C8 (amended: the Wall default holds for the cell lookup, for
the four orthogonal probes of the sealed check and for the flood fill's
bounds guard, but the 8-neighborhood wall count skips out-of-range
neighbors instead of counting them as Wall).  `cellAt` returns Wall on
every out-of-range coordinate — on the empty grid in particular — and the
sealed detector's four orthogonal neighbor expressions coincide with
`cellAt` at the neighbor coordinates. -/
theorem cellAt_out_of_range_spec :
    (∀ x y : Int, cellAt ([] : List (List Char)) x y = 'W') ∧
    (∀ (g : List (List Char)) (x y : Int),
      ¬(0 ≤ y ∧ y < (g.length : Int) ∧ 0 ≤ x ∧ x < ((rowAt g y.toNat).length : Int)) →
      cellAt g x y = 'W') ∧
    (∀ (g : List (List Char)) (x y : Nat), y < g.length → x < (rowAt g y).length →
      (1 ≤ y →
        (if x < (rowAt g (y - 1)).length then (rowAt g (y - 1)).getD x 'W' else 'W') =
          cellAt g ↑x (↑y - 1)) ∧
      (y + 1 < g.length →
        (if x < (rowAt g (y + 1)).length then (rowAt g (y + 1)).getD x 'W' else 'W') =
          cellAt g ↑x (↑y + 1)) ∧
      ((if 0 < x then (rowAt g y).getD (x - 1) 'W' else 'W') = cellAt g (↑x - 1) ↑y) ∧
      ((if x < (rowAt g y).length - 1 then (rowAt g y).getD (x + 1) 'W' else 'W') =
          cellAt g (↑x + 1) ↑y)) := by
  refine ⟨?_, ?_, ?_⟩
  · intro x y
    unfold cellAt
    rw [if_neg]
    intro hc
    have h1 := hc.1
    have h2 := hc.2.1
    simp only [List.length_nil] at h2
    omega
  · intro g x y h
    unfold cellAt
    rw [if_neg h]
  · intro g x y hy hx
    refine ⟨?_, ?_, ?_, ?_⟩
    · intro h1
      exact (cellAt_up g x y h1 (by omega)).symm
    · intro h2
      exact (cellAt_down g x y h2).symm
    · exact (cellAt_left g x y hy hx).symm
    · exact (cellAt_right g x y hy).symm

/-- Witness for claim C8's amended theorem at concrete out-of-range
coordinates. -/
theorem cellAt_out_of_range_spec_witness :
    cellAt (toRows ["W."]) 5 0 = 'W' ∧ cellAt (toRows ["W."]) (-1) 0 = 'W' ∧
    cellAt (toRows []) 0 0 = 'W' :=
  ⟨cellAt_out_of_range_spec.2.1 (toRows ["W."]) 5 0 (by decide),
    cellAt_out_of_range_spec.2.1 (toRows ["W."]) (-1) 0 (by decide),
    cellAt_out_of_range_spec.1 0 0⟩

/-! ### Clustering lemmas -/

instance instIsTotalCountDesc : IsTotal (Nat × Nat) (fun a b => b.2 ≤ a.2) :=
  ⟨fun a b => Nat.le_total b.2 a.2⟩

instance instIsTransCountDesc : IsTrans (Nat × Nat) (fun a b => b.2 ≤ a.2) :=
  ⟨fun _ _ _ hab hbc => Nat.le_trans hbc hab⟩

theorem diamondLines_sum (g : List (List Char)) :
    ∀ i, ((diamondLines i g).map (fun q => q.2)).sum = countDiamonds g := by
  induction g with
  | nil => intro i; rfl
  | cons row rows ih =>
    intro i
    by_cases h : 0 < row.count '*'
    · simp [diamondLines, h, ih (i + 1), countDiamonds]
    · have h0 : row.count '*' = 0 := by omega
      simp [diamondLines, h, ih (i + 1), countDiamonds, h0]

theorem diamondLines_nil_iff (g : List (List Char)) :
    ∀ i, diamondLines i g = [] ↔ countDiamonds g = 0 := by
  induction g with
  | nil => intro i; simp [diamondLines, countDiamonds]
  | cons row rows ih =>
    intro i
    by_cases h : 0 < row.count '*'
    · simp [diamondLines, h, countDiamonds]
      omega
    · have h0 : row.count '*' = 0 := by omega
      simp [diamondLines, h, ih (i + 1), countDiamonds, h0]

theorem diamondLines_pos (g : List (List Char)) :
    ∀ i q, q ∈ diamondLines i g → 0 < q.2 := by
  induction g with
  | nil => intro i q hq; exact absurd hq (List.not_mem_nil q)
  | cons row rows ih =>
    intro i q hq
    by_cases h : 0 < row.count '*'
    · rw [diamondLines, if_pos h] at hq
      rcases List.mem_append.mp hq with h2 | h2
      · rw [List.mem_singleton] at h2
        exact h2 ▸ h
      · exact ih (i + 1) q h2
    · rw [diamondLines, if_neg h] at hq
      exact ih (i + 1) q (by simpa using hq)

theorem sortByCountDesc_perm (l : List (Nat × Nat)) : (sortByCountDesc l).Perm l :=
  List.perm_insertionSort _ l

theorem sortByCountDesc_take_drop (l : List (Nat × Nat)) :
    ∀ q ∈ (sortByCountDesc l).drop 2, ∀ r ∈ (sortByCountDesc l).take 2, q.2 ≤ r.2 := by
  have hs : List.Sorted (fun a b : Nat × Nat => b.2 ≤ a.2) (sortByCountDesc l) :=
    List.sorted_insertionSort _ l
  rw [← List.take_append_drop 2 (sortByCountDesc l), List.Sorted,
    List.pairwise_append] at hs
  intro q hq r hr
  exact hs.2.2 r hr q hq

theorem count_dropWhile_not_ws (c : Char) (hc : pyWhitespace c = false) (l : List Char) :
    (l.dropWhile pyWhitespace).count c = l.count c := by
  conv_rhs => rw [← List.takeWhile_append_dropWhile (p := pyWhitespace) (l := l)]
  rw [List.count_append]
  have hz : (l.takeWhile pyWhitespace).count c = 0 := by
    rw [List.count_eq_zero]
    intro hmem
    have hmem2 := List.mem_takeWhile_imp hmem
    rw [hc] at hmem2
    exact Bool.false_ne_true hmem2
  omega

theorem count_pyStrip (t : List Char) (c : Char) (hc : pyWhitespace c = false) :
    (pyStrip t).count c = t.count c := by
  unfold pyStrip
  rw [List.count_reverse, count_dropWhile_not_ws c hc, List.count_reverse,
    count_dropWhile_not_ws c hc]

theorem count_splitLines (c : Char) (hc : c ≠ '\n') :
    ∀ t : List Char, ((splitLines t).map (fun l => l.count c)).sum = t.count c := by
  intro t
  induction t with
  | nil => simp [splitLines]
  | cons a as ih =>
    by_cases ha : a = '\n'
    · subst ha
      rw [show splitLines ('\n' :: as) = [] :: splitLines as from by
        rw [splitLines]; rw [if_pos rfl]]
      simp only [List.map_cons, List.sum_cons, List.count_nil]
      rw [ih, List.count_cons]
      have hne : ('\n' == c) = false := by
        rw [beq_eq_false_iff_ne]
        exact fun h => hc h.symm
      rw [hne]
      simp
    · cases hsplit : splitLines as with
      | nil => exact absurd hsplit (splitLines_ne_nil as)
      | cons r rs =>
        rw [show splitLines (a :: as) = (a :: r) :: rs from by
          rw [splitLines, if_neg ha, hsplit]]
        rw [hsplit] at ih
        simp only [List.map_cons, List.sum_cons] at ih ⊢
        rw [List.count_cons, List.count_cons]
        omega

theorem available_eq (t : List Char) :
    t.count '*' = countDiamonds (splitLines (pyStrip t)) := by
  have h1 := count_splitLines '*' (by decide) (pyStrip t)
  have h2 := count_pyStrip t '*' (by decide)
  unfold countDiamonds
  rw [h1, h2]

/-! ### Claim C7 -/

/-- Claim C7.  The clustering check counts diamonds per row (their total
matching the raw pattern's diamond count), reports "no diamonds" for a
diamond-free grid — an outcome distinct from "well distributed" —, for a
nonempty diamond set flags the grid as clustered exactly when the summed
count of the two rows with the highest counts (every dropped row counts
no more than either kept row, by the descending sort) exceeds 60% of the
total, and reports a grid with all diamonds in a single row as clustered
with percentage 100. -/
theorem cluster_spec (t : List Char) :
    t.count '*' = countDiamonds (splitLines (pyStrip t)) ∧
    (t.count '*' = 0 → clusterOf t = ClusterReport.noDiamonds) ∧
    ClusterReport.noDiamonds ≠ ClusterReport.wellDistributed ∧
    (0 < t.count '*' →
      (60 * t.count '*' < 100 * topTwoSum t →
        clusterOf t = ClusterReport.clustered
          ((topTwoSum t : ℚ) / (t.count '*' : ℚ) * 100)
          ((sortByCountDesc (diamondLines 0 (splitLines (pyStrip t)))).take 2).length) ∧
      (¬ 60 * t.count '*' < 100 * topTwoSum t →
        clusterOf t = ClusterReport.wellDistributed)) ∧
    (∀ q ∈ (sortByCountDesc (diamondLines 0 (splitLines (pyStrip t)))).drop 2,
      ∀ r ∈ (sortByCountDesc (diamondLines 0 (splitLines (pyStrip t)))).take 2,
        q.2 ≤ r.2) ∧
    (sortByCountDesc (diamondLines 0 (splitLines (pyStrip t)))).Perm
      (diamondLines 0 (splitLines (pyStrip t))) ∧
    (∀ r k, diamondLines 0 (splitLines (pyStrip t)) = [(r, k)] →
      clusterOf t = ClusterReport.clustered 100 1) := by
  refine ⟨available_eq t, ?_, by decide, ?_, sortByCountDesc_take_drop _,
    sortByCountDesc_perm _, ?_⟩
  · intro h
    have hcd : countDiamonds (splitLines (pyStrip t)) = 0 := by
      rw [← available_eq]; exact h
    have hdl : diamondLines 0 (splitLines (pyStrip t)) = [] :=
      (diamondLines_nil_iff _ 0).mpr hcd
    simp [clusterOf, hdl]
  · intro hpos
    have hdl : diamondLines 0 (splitLines (pyStrip t)) ≠ [] := by
      rw [ne_eq, diamondLines_nil_iff _ 0, ← available_eq]
      omega
    have havq : (0 : ℚ) < (t.count '*' : ℚ) := by exact_mod_cast hpos
    have hiff : (60 : ℚ) < (topTwoSum t : ℚ) / (t.count '*' : ℚ) * 100 ↔
        60 * t.count '*' < 100 * topTwoSum t := by
      rw [div_mul_eq_mul_div, lt_div_iff₀ havq]
      constructor
      · intro h
        have h2 : (60 * t.count '*' : ℚ) < (100 * topTwoSum t : ℚ) := by linarith
        exact_mod_cast h2
      · intro h
        have h2 : (60 * t.count '*' : ℚ) < (100 * topTwoSum t : ℚ) := by exact_mod_cast h
        push_cast at h2 ⊢
        linarith
    have hTT : (List.map (fun q : Nat × Nat => ((q.2 : ℚ)))
        (List.take 2 (sortByCountDesc (diamondLines 0 (splitLines (pyStrip t)))))).sum
        = ((topTwoSum t : ℚ)) := by
      rw [topTwoSum, Nat.cast_list_sum, List.map_map]
      rfl
    constructor
    · intro hlt
      simp only [clusterOf, List.isEmpty_iff, if_neg hdl, if_pos hpos]
      rw [hTT, if_pos (hiff.mpr hlt)]
    · intro hlt
      simp only [clusterOf, List.isEmpty_iff, if_neg hdl, if_pos hpos]
      rw [hTT, if_neg (fun hcl => hlt (hiff.mp hcl))]
  · intro r k hdl
    have hk : 0 < k :=
      diamondLines_pos _ 0 (r, k) (by rw [hdl]; exact List.mem_singleton_self _)
    have hsum : countDiamonds (splitLines (pyStrip t)) = k := by
      rw [← diamondLines_sum _ 0, hdl]
      simp
    have havail : t.count '*' = k := by rw [available_eq t, hsum]
    have hsort : sortByCountDesc [(r, k)] = [(r, k)] := rfl
    have hpct : ((k : ℚ)) / ((k : ℚ)) * 100 = 100 := by
      rw [div_self (by exact_mod_cast hk.ne' : (k : ℚ) ≠ 0)]
      ring
    simp only [clusterOf, hdl, hsort, List.isEmpty_iff, havail]
    rw [if_neg (by simp : ¬([((r, k) : Nat × Nat)] = []))]
    simp only [List.take, List.map_cons, List.map_nil, List.sum_cons, List.sum_nil,
      List.length_cons, List.length_nil]
    rw [if_pos hk]
    have hfix : ((k : ℚ) + 0) / (k : ℚ) * 100 = 100 := by rw [add_zero]; exact hpct
    rw [if_pos (by rw [hfix]; norm_num : (60 : ℚ) < ((k : ℚ) + 0) / (k : ℚ) * 100)]
    rw [hfix]

/-- Witness for claim C7's theorem: a two-row grid with both diamonds in
the first row is reported clustered at 100%. -/
theorem cluster_spec_witness :
    clusterOf "**\nW.".toList = ClusterReport.clustered 100 1 :=
  (cluster_spec "**\nW.".toList).2.2.2.2.2.2 0 2 (by decide)

/-! ### Parsing lemmas -/

theorem splitLines_no_newline (t : List Char) : ∀ r ∈ splitLines t, '\n' ∉ r := by
  induction t with
  | nil =>
    intro r hr
    rw [show splitLines [] = [[]] from rfl, List.mem_singleton] at hr
    subst hr
    exact List.not_mem_nil _
  | cons a as ih =>
    intro r hr
    by_cases ha : a = '\n'
    · subst ha
      rw [show splitLines ('\n' :: as) = [] :: splitLines as from by
        rw [splitLines]; rw [if_pos rfl]] at hr
      rcases List.mem_cons.mp hr with h | h
      · subst h; exact List.not_mem_nil _
      · exact ih r h
    · cases hsplit : splitLines as with
      | nil => exact absurd hsplit (splitLines_ne_nil as)
      | cons r2 rs =>
        rw [show splitLines (a :: as) = (a :: r2) :: rs from by
          rw [splitLines, if_neg ha, hsplit]] at hr
        rcases List.mem_cons.mp hr with h | h
        · subst h
          intro hmem
          rcases List.mem_cons.mp hmem with h2 | h2
          · exact ha h2.symm
          · exact ih r2 (by rw [hsplit]; exact List.mem_cons_self r2 rs) h2
        · exact ih r (by rw [hsplit]; exact List.mem_cons_of_mem r2 h)

theorem splitLines_single (r : List Char) (hr : '\n' ∉ r) : splitLines r = [r] := by
  induction r with
  | nil => rfl
  | cons c cs ih =>
    have hc : c ≠ '\n' := fun h => hr (h ▸ List.mem_cons_self c cs)
    have hcs : '\n' ∉ cs := fun h => hr (List.mem_cons_of_mem c h)
    rw [splitLines, if_neg hc, ih hcs]

theorem splitLines_append (r u : List Char) (hr : '\n' ∉ r) :
    splitLines (r ++ '\n' :: u) = r :: splitLines u := by
  induction r with
  | nil =>
    show splitLines ('\n' :: u) = [] :: splitLines u
    rw [splitLines]
    rw [if_pos rfl]
  | cons c cs ih =>
    have hc : c ≠ '\n' := fun h => hr (h ▸ List.mem_cons_self c cs)
    have hcs : '\n' ∉ cs := fun h => hr (List.mem_cons_of_mem c h)
    show splitLines (c :: (cs ++ '\n' :: u)) = (c :: cs) :: splitLines u
    rw [splitLines, if_neg hc, ih hcs]

theorem splitLines_joinLines (rows : List (List Char)) (hne : rows ≠ [])
    (hnl : ∀ r ∈ rows, '\n' ∉ r) : splitLines (joinLines rows) = rows := by
  induction rows with
  | nil => exact absurd rfl hne
  | cons r rs ih =>
    cases rs with
    | nil =>
      show splitLines (joinLines [r]) = [r]
      rw [show joinLines [r] = r from rfl]
      exact splitLines_single r (hnl r (List.mem_cons_self r []))
    | cons r2 rs2 =>
      show splitLines (r ++ '\n' :: joinLines (r2 :: rs2)) = r :: r2 :: rs2
      rw [splitLines_append r _ (hnl r (List.mem_cons_self r _))]
      rw [ih (by simp) (fun x hx => hnl x (List.mem_cons_of_mem r hx))]

theorem pyStrip_infix (t : List Char) :
    ∃ pre suf, t = pre ++ pyStrip t ++ suf ∧
      (∀ c ∈ pre, pyWhitespace c = true) ∧ (∀ c ∈ suf, pyWhitespace c = true) := by
  refine ⟨t.takeWhile pyWhitespace,
    ((t.dropWhile pyWhitespace).reverse.takeWhile pyWhitespace).reverse, ?_, ?_, ?_⟩
  · have h1 : t.takeWhile pyWhitespace ++ t.dropWhile pyWhitespace = t :=
      List.takeWhile_append_dropWhile pyWhitespace t
    have h2 : (t.dropWhile pyWhitespace).reverse.takeWhile pyWhitespace ++
        (t.dropWhile pyWhitespace).reverse.dropWhile pyWhitespace =
        (t.dropWhile pyWhitespace).reverse :=
      List.takeWhile_append_dropWhile pyWhitespace _
    have h3 := congrArg List.reverse h2
    rw [List.reverse_append, List.reverse_reverse] at h3
    show t = t.takeWhile pyWhitespace ++ pyStrip t ++ _
    rw [pyStrip, List.append_assoc, h3, h1]
  · intro c hc
    exact List.mem_takeWhile_imp hc
  · intro c hc
    rw [List.mem_reverse] at hc
    exact List.mem_takeWhile_imp hc

/-! ### Claim C9 -/

/-- Claim C9, counterexample.  The accessibility checker's parse
(`[line for line in pattern_text.strip().split('\n') if line]`) drops
every blank line, interior ones included: for the pattern `"W\n\nW"` the
stripped text has three lines with the blank one in the middle, yet the
parsed grid has two rows, so the second non-blank line sits at row index
1 while its line position is 2.  Moreover the outer `strip()` eats the
leading space of the first row: `" W\nW"` parses to `["W", "W"]`, not
`[" W", "W"]`. -/
theorem parse_drops_rows :
    splitLines (pyStrip "W\n\nW".toList) = [['W'], [], ['W']] ∧
    (splitLines (pyStrip "W\n\nW".toList)).filter (fun l => !l.isEmpty) = [['W'], ['W']] ∧
    ((splitLines (pyStrip "W\n\nW".toList)).filter (fun l => !l.isEmpty)).getD 1 [] = ['W'] ∧
    (splitLines (pyStrip "W\n\nW".toList)).getD 1 [] = [] ∧
    splitLines (pyStrip " W\nW".toList) = [['W'], ['W']] := by
  refine ⟨by decide, by decide, by decide, by decide, by decide⟩

/-- Claim C9 (amended).  Parsing splits exactly on line boundaries: no
parsed row contains a newline, and joining newline-free rows and
splitting again is the identity (so rows, their leading/trailing spaces
included, are preserved whenever the pattern carries no outer
whitespace); the single outer `strip()` removes only a whitespace
prefix and suffix of the whole pattern text — which can take blank
boundary lines and boundary spaces of the first and last rows with it —
and the accessibility checker additionally drops every blank line,
interior ones included. -/
theorem parse_spec :
    (∀ rows : List (List Char), rows ≠ [] → (∀ r ∈ rows, '\n' ∉ r) →
      splitLines (joinLines rows) = rows) ∧
    (∀ t : List Char, ∀ r ∈ splitLines t, '\n' ∉ r) ∧
    (∀ t : List Char, ∃ pre suf, t = pre ++ pyStrip t ++ suf ∧
      (∀ c ∈ pre, pyWhitespace c = true) ∧ (∀ c ∈ suf, pyWhitespace c = true)) :=
  ⟨splitLines_joinLines, splitLines_no_newline, pyStrip_infix⟩

/-- Witness for claim C9's amended theorem: the split/join round trip on
rows with an interior blank row. -/
theorem parse_spec_witness :
    splitLines (joinLines [['W'], [], ['W']]) = [['W'], [], ['W']] :=
  parse_spec.1 [['W'], [], ['W']] (by decide) (by decide)

end Boulderdash
